import Mathlib

/-!
Verification of the `bd` binary-dependency manager (Go, `bd.go`) against its
natural-language specification.  The Go code is shallowly embedded: strings are
`List Char`, the binary directory is an association list from file names to
entries (regular file or symbolic link), and each Go function that the claims
touch is translated into a Lean function of the same name.  The embedding
models the non-Windows execution path except where a claim is explicitly about
the platform extension, in which case the `runtime.GOOS == "windows"` test is
kept as a boolean parameter.
-/

set_option autoImplicit false

namespace BD

/-- Strings of the Go program, modelled as lists of characters. -/
abbrev Str := List Char

/-- `strings.Split(s, string(c))` for a one-character separator: the list of
maximal runs of characters not equal to `c`.  Mirrors Go's behaviour of
returning `[""]` on the empty string and producing empty fields around
adjacent separators. -/
def splitOnChar (c : Char) : Str → List Str
  | [] => [[]]
  | x :: xs =>
    match splitOnChar c xs with
    | [] => if x = c then [[], []] else [[x]]
    | h :: t => if x = c then [] :: h :: t else (x :: h) :: t

/-- `filepath.Base` for Unix paths: `"."` on the empty path, `"/"` when the
path consists only of separators, otherwise the last path element after
stripping trailing separators. -/
def filepathBase (p : Str) : Str :=
  if p = [] then ['.']
  else
    match p.reverse.dropWhile (fun c => c = '/') with
    | [] => ['/']
    | r => (r.takeWhile (fun c => ¬ (c = '/'))).reverse

/-- One entry of the `binaries` list of `bd.json` (struct `Binary`). -/
structure Binary where
  package : Str
  version : Str
  name : Str
  toolchain : Str
  deriving DecidableEq, Repr

/-- `normalizeBinary`: split an embedded `@version` off the package identifier
(taking `parts[0]` and `parts[1]` when the split has more than one field),
default an empty version to `"latest"`, and default an empty name to
`filepath.Base` of the (de-suffixed) package.  The Go function always returns
`nil`, so the model is total. -/
def normalizeBinary (b : Binary) : Binary :=
  let parts := splitOnChar '@' b.package
  let pv : Str × Str :=
    match parts with
    | p0 :: p1 :: _ => (p0, p1)
    | _ => (b.package, b.version)
  let ver := if pv.2 = [] then "latest".data else pv.2
  let nm := if b.name = [] then filepathBase pv.1 else b.name
  ⟨pv.1, ver, nm, b.toolchain⟩

/-- `buildBinName`: `strings.Join([]string{name, version, toolchain}, "-")`,
with `".exe"` appended when running on Windows. -/
def buildBinName (win : Bool) (name version toolchain : Str) : Str :=
  List.intercalate ['-'] [name, version, toolchain] ++
    (if win then ".exe".data else [])

/-- `buildSymlinkName`: the bare name, with `".exe"` appended on Windows. -/
def buildSymlinkName (win : Bool) (name : Str) : Str :=
  name ++ (if win then ".exe".data else [])

/-- One object inside the binary directory: a regular file (an installed
artifact, or any pre-existing plain file) or a symbolic link storing its
target name. -/
inductive Entry where
  | artifact
  | link (target : Str)
  deriving DecidableEq, Repr

/-- The contents of the binary directory: an association list from file name
(relative to `binDir`; every path the program touches is
`filepath.Join(binDir, name)` for a fixed `binDir`) to entry. -/
abbrev FS := List (Str × Entry)

/-- Look up the directory entry stored under a name. -/
def lookupFS : FS → Str → Option Entry
  | [], _ => none
  | (q, e) :: r, p => if q = p then some e else lookupFS r p

/-- `os.Remove`: drop the directory entry stored under a name (the entry
itself, never following a symbolic link). -/
def eraseFS (fs : FS) (p : Str) : FS :=
  fs.filter (fun q => ¬ (q.1 = p))

/-- Store an entry under a name, replacing whatever was there (the effect of
`os.Rename` onto an existing destination, and of creating a fresh file). -/
def setFS (fs : FS) (p : Str) (e : Entry) : FS :=
  (p, e) :: eraseFS fs p

/-- Result of resolving a path through symbolic links: a regular file was
reached, some name on the chain does not exist (`ENOENT`), or the chain does
not terminate (`ELOOP`). -/
inductive RRes where
  | found
  | noent
  | loop
  deriving DecidableEq, Repr

/-- Fuel-bounded symbolic-link resolution. -/
def resolveN : Nat → FS → Str → RRes
  | 0, _, _ => .loop
  | n + 1, fs, p =>
    match lookupFS fs p with
    | none => .noent
    | some .artifact => .found
    | some (.link t) => resolveN n fs t

/-- Resolution as performed by `os.Stat`.  Fuel `fs.length + 1` is exact: a
terminating chain never revisits a name, so it takes at most one step per
stored entry, and a chain that exhausts this fuel necessarily cycles. -/
def resolveFS (fs : FS) (p : Str) : RRes :=
  resolveN (fs.length + 1) fs p

/-- `os.Stat(p); err == nil`: the path resolves to a regular file. -/
def statOk (fs : FS) (p : Str) : Bool :=
  resolveFS fs p = .found

/-- `os.IsNotExist(err)` after `os.Stat(p)`: resolution ends at a missing
name.  A resolution loop produces `ELOOP`, for which `os.IsNotExist` is
`false`. -/
def statNoent (fs : FS) (p : Str) : Bool :=
  resolveFS fs p = .noent

/-- `symlinkBinary` (non-Windows branch): if `os.Stat(link)` succeeds the
entry at `link` is removed; then `os.Symlink(target, link)` fails with
`EEXIST` when any entry (notably a dangling symbolic link, which `os.Stat`
does not report) still occupies `link`, and otherwise creates the link. -/
def symlinkBinary (fs : FS) (target lnk : Str) : Option FS :=
  let fs1 := if statOk fs lnk then eraseFS fs lnk else fs
  match lookupFS fs1 lnk with
  | some _ => none
  | none => some (setFS fs1 lnk (.link target))

/-- The final artifact name of a declaration (non-Windows). -/
def binName (b : Binary) : Str :=
  buildBinName false b.name b.version b.toolchain

/-- `installBinary` (non-Windows), with the external `go install` build step
modelled as succeeding and placing one artifact, which `os.Rename` moves onto
the final path.  Returns the new directory state and the number of external
toolchain invocations (0 on the skip-if-present branch, 1 on a build), or
`none` if the step fails (alias publication failure). -/
def installBinary (b : Binary) (fs : FS) : Option (FS × Nat) :=
  let fp := binName b
  let lp := buildSymlinkName false b.name
  if statOk fs fp ∧ b.version ≠ "latest".data then
    match symlinkBinary fs fp lp with
    | none => none
    | some fs2 => some (fs2, 0)
  else
    let fs1 := setFS fs fp .artifact
    match symlinkBinary fs1 fp lp with
    | none => none
    | some fs2 => some (fs2, 1)

/-- `installBinaries`: process declarations in manifest order, aborting on the
first failure; the returned number counts external toolchain invocations. -/
def installBinaries (bins : List Binary) (fs : FS) : Option (FS × Nat) :=
  match bins with
  | [] => some (fs, 0)
  | b :: rest =>
    match installBinary b fs with
    | none => none
    | some (fs1, k) =>
      match installBinaries rest fs1 with
      | none => none
      | some (fs2, m) => some (fs2, k + m)

/-- Outcome of running a child process, as observed through `exec.Cmd.Run`:
either the child could not be launched at all, or it ran and exited with the
given status code. -/
inductive ChildResult where
  | launchFailed
  | exited (code : Nat)
  deriving DecidableEq, Repr

/-- Go's `cmd.Run` contract: the returned error is `nil` exactly when the
command was launched successfully and exited with status zero; a non-zero
exit produces an `*ExitError` and a failed launch produces the launch error. -/
def goRunErr : ChildResult → Bool
  | .launchFailed => true
  | .exited n => decide (n ≠ 0)

/-- `execCmd`, reduced to the process exit status it produces: when `cmd.Run`
returns any error the program calls `die`, which exits with code 1; otherwise
`execCmd` returns and `main` falls off the end, exiting with code 0. -/
def execCmd (r : ChildResult) : Nat :=
  if goRunErr r then 1 else 0

/-- Outcome of `execBinary`: the requested name is not declared in `bd.json`
(`die`, exit 1, nothing spawned), the declaration's artifact is missing from
disk (`die`, exit 1, nothing spawned), or a child process was spawned on the
given path with the given arguments and finished as recorded. -/
inductive ExecOut where
  | notFound
  | notInstalled
  | spawned (path : Str) (args : List Str) (result : ChildResult)
  deriving DecidableEq, Repr

/-- `execBinary` (non-Windows): linear scan of the declarations for the first
name match; no match dies "not found in bd.json"; a match whose artifact path
does not exist (`os.IsNotExist` after `os.Stat`) dies "not installed"; any
other `os.Stat` outcome proceeds to spawn the child.  `child` supplies the
behaviour of the spawned process. -/
def execBinaryM (bins : List Binary) (name : Str) (args : List Str) (fs : FS)
    (child : Str → List Str → ChildResult) : ExecOut :=
  match bins.find? (fun b => b.name = name) with
  | none => .notFound
  | some b =>
    let bp := binName b
    if statNoent fs bp then .notInstalled
    else .spawned bp args (child bp args)

/-- Process exit status of the `exec` command for a given outcome. -/
def execOutExit : ExecOut → Nat
  | .notFound => 1
  | .notInstalled => 1
  | .spawned _ _ r => execCmd r

/-- The root object of `bd.json` after loading (the `binDir` string plays no
role in the claims once paths are taken relative to it). -/
structure Config where
  binaries : List Binary
  deriving Repr

/-- The clean flag as recognized by `main`'s scan of `os.Args[2:]`. -/
def isCleanFlag (a : Str) : Bool :=
  a = "--clean".data ∨ a = "-clean".data ∨ a = "-c".data

/-- Outcome of one `main` invocation: the usage message was printed (exit 1),
loading `bd.json` failed (`die`, exit 1), the `install` command ran with the
given result, or the `exec` command ran with the given outcome. -/
inductive MainOut where
  | usage
  | loadError
  | installed (r : Option (FS × Nat))
  | execRes (o : ExecOut)
  deriving DecidableEq, Repr

/-- `main`: with fewer than two elements in `os.Args`, print usage and exit.
Otherwise load `bd.json` (dying on failure), scan `os.Args[2:]` for a clean
flag and, if one is present, `os.RemoveAll` the binary directory — all before
dispatching on `os.Args[1]`.  `install` and `exec` run the corresponding
operation (exec with fewer than three arguments prints usage); every other
first argument prints usage.  `argv` is the full `os.Args`, `load` the result
of `loadConfig`, `fs` the initial contents of the binary directory. -/
def mainModel (argv : List Str) (load : Option Config) (fs : FS)
    (child : Str → List Str → ChildResult) : MainOut :=
  match argv with
  | [] => .usage
  | [_] => .usage
  | _ :: cmd :: rest =>
    match load with
    | none => .loadError
    | some cfg =>
      let fs1 := if rest.any isCleanFlag then [] else fs
      if cmd = "install".data then .installed (installBinaries cfg.binaries fs1)
      else if cmd = "exec".data then
        match rest with
        | [] => .usage
        | name :: args => .execRes (execBinaryM cfg.binaries name args fs1 child)
      else .usage

/-- Process exit status of a whole `main` invocation. -/
def mainExit : MainOut → Nat
  | .usage => 1
  | .loadError => 1
  | .installed none => 1
  | .installed (some _) => 0
  | .execRes o => execOutExit o

/-- Resolution of a name terminates at a regular file: the proof-level
counterpart of `statOk`, used to reason about states across modifications. -/
inductive Res (fs : FS) : Str → Prop where
  | art {p : Str} : lookupFS fs p = some Entry.artifact → Res fs p
  | lnk {p t : Str} : lookupFS fs p = some (Entry.link t) → Res fs t → Res fs p

/-- Every symbolic link in the directory points at a strictly longer name.
All links the program itself creates have this shape (the artifact name
extends the alias name by at least `-<version>-`), and it rules out
resolution cycles. -/
def LenGood (fs : FS) : Prop :=
  ∀ p t, lookupFS fs p = some (Entry.link t) → p.length < t.length

/-- Every symbolic link in the directory has a resolving target: no link is
dangling. -/
def AllRes (fs : FS) : Prop :=
  ∀ p t, lookupFS fs p = some (Entry.link t) → Res fs t

/-- Number of directory entries whose name is strictly longer than `p`: a
termination measure for resolution chains in a `LenGood` directory. -/
def overCount (p : Str) : FS → Nat
  | [] => 0
  | e :: r => (if p.length < e.1.length then 1 else 0) + overCount p r

/-! ### Lemmas about `splitOnChar` and `filepathBase` -/

theorem splitOnChar_ne_nil (c : Char) (s : Str) : splitOnChar c s ≠ [] := by
  cases s with
  | nil => simp [splitOnChar]
  | cons x xs =>
    simp only [splitOnChar]
    rcases splitOnChar c xs with _ | ⟨h, t⟩ <;> by_cases hx : x = c <;> simp [hx]

theorem splitOnChar_of_not_mem {c : Char} {s : Str} (h : c ∉ s) :
    splitOnChar c s = [s] := by
  induction s with
  | nil => rfl
  | cons x xs ih =>
    have hx : ¬ x = c := fun hc => h (hc ▸ List.mem_cons_self x xs)
    have hxs : c ∉ xs := fun hc => h (List.mem_cons_of_mem x hc)
    simp only [splitOnChar, ih hxs]
    simp [hx]

theorem splitOnChar_eq_singleton {c : Char} {s p : Str}
    (h : splitOnChar c s = [p]) : p = s ∧ c ∉ s := by
  induction s generalizing p with
  | nil =>
    simp only [splitOnChar] at h
    cases h
    exact ⟨rfl, by simp⟩
  | cons x xs ih =>
    simp only [splitOnChar] at h
    rcases hs : splitOnChar c xs with _ | ⟨h0, t0⟩
    · exact absurd hs (splitOnChar_ne_nil c xs)
    · rw [hs] at h
      by_cases hx : x = c
      · simp [hx] at h
      · simp only [if_neg hx] at h
        obtain ⟨hp, ht⟩ := List.cons.injEq .. ▸ h
        subst ht
        obtain ⟨hh, hc⟩ := ih hs
        subst hh hp
        refine ⟨rfl, ?_⟩
        intro hm
        rcases List.mem_cons.mp hm with h1 | h2
        · exact hx h1.symm
        · exact hc h2

theorem splitOnChar_head_not_mem {c : Char} {s p : Str} {t : List Str}
    (h : splitOnChar c s = p :: t) : c ∉ p := by
  induction s generalizing p t with
  | nil =>
    simp only [splitOnChar] at h
    cases h
    simp
  | cons x xs ih =>
    simp only [splitOnChar] at h
    rcases hs : splitOnChar c xs with _ | ⟨h0, t0⟩
    · exact absurd hs (splitOnChar_ne_nil c xs)
    · rw [hs] at h
      by_cases hx : x = c
      · simp only [if_pos hx] at h
        cases h
        simp
      · simp only [if_neg hx] at h
        obtain ⟨hp, -⟩ := List.cons.injEq .. ▸ h
        subst hp
        intro hm
        rcases List.mem_cons.mp hm with h1 | h2
        · exact hx h1.symm
        · exact ih hs h2

theorem splitOnChar_append {c : Char} {p : Str} (v : Str) (hp : c ∉ p) :
    splitOnChar c (p ++ c :: v) = p :: splitOnChar c v := by
  induction p with
  | nil =>
    simp only [List.nil_append, splitOnChar]
    rcases hs : splitOnChar c v with _ | ⟨h0, t0⟩
    · exact absurd hs (splitOnChar_ne_nil c v)
    · simp
  | cons x xs ih =>
    have hx : ¬ x = c := fun hc => hp (hc ▸ List.mem_cons_self x xs)
    have hxs : c ∉ xs := fun hc => hp (List.mem_cons_of_mem x hc)
    simp only [List.cons_append, splitOnChar, List.append_eq]
    rw [ih hxs]
    simp [hx]

theorem dropWhile_head_false {p : Char → Bool} {l : Str} {y : Char} {ys : Str}
    (h : l.dropWhile p = y :: ys) : p y = false := by
  induction l with
  | nil => simp [List.dropWhile] at h
  | cons x xs ih =>
    simp only [List.dropWhile] at h
    cases hx : p x with
    | true =>
      rw [hx] at h
      exact ih h
    | false =>
      rw [hx] at h
      simp only at h
      injection h with h1 h2
      subst h1
      exact hx

theorem filepathBase_ne_nil (p : Str) : filepathBase p ≠ [] := by
  by_cases hp : p = []
  · simp [filepathBase, hp]
  · simp only [filepathBase, if_neg hp]
    rcases hd : p.reverse.dropWhile (fun c => c = '/') with _ | ⟨y, ys⟩
    · simp
    · have hy : (fun c : Char => decide (c = '/')) y = false :=
        dropWhile_head_false hd
      simp only [List.takeWhile]
      simp only [decide_not, hy]
      simp

/-! ### Lemmas about the directory model -/

theorem lookupFS_eraseFS_self (fs : FS) (p : Str) :
    lookupFS (eraseFS fs p) p = none := by
  induction fs with
  | nil => rfl
  | cons x r ih =>
    simp only [eraseFS, List.filter_cons] at ih ⊢
    by_cases hx : x.1 = p
    · simp only [hx, decide_not, decide_True, Bool.not_true, if_neg]
      simpa using ih
    · simp only [decide_not]
      rw [if_pos (by simpa using hx)]
      simpa [lookupFS, hx] using ih

theorem lookupFS_eraseFS_ne (fs : FS) {p q : Str} (h : ¬ q = p) :
    lookupFS (eraseFS fs p) q = lookupFS fs q := by
  induction fs with
  | nil => rfl
  | cons x r ih =>
    simp only [eraseFS, List.filter_cons] at ih ⊢
    by_cases hx : x.1 = p
    · rw [if_neg (by simpa using hx)]
      have hxq : ¬ x.1 = q := fun hq => h (hq ▸ hx ▸ rfl)
      simpa [lookupFS, hxq] using ih
    · rw [if_pos (by simpa using hx)]
      by_cases hxq : x.1 = q
      · simp [lookupFS, hxq]
      · simpa [lookupFS, hxq] using ih

theorem lookupFS_setFS_self (fs : FS) (p : Str) (e : Entry) :
    lookupFS (setFS fs p e) p = some e := by
  simp [setFS, lookupFS]

theorem lookupFS_setFS_ne (fs : FS) {p q : Str} (e : Entry) (h : ¬ q = p) :
    lookupFS (setFS fs p e) q = lookupFS fs q := by
  have hpq : ¬ p = q := fun hq => h hq.symm
  simp [setFS, lookupFS, hpq, lookupFS_eraseFS_ne fs h]

theorem statOk_of_lookup_none {fs : FS} {p : Str} (h : lookupFS fs p = none) :
    statOk fs p = false := by
  simp [statOk, resolveFS, resolveN, h]

/-! ### Claim C1 -/

/-- Claim C1 counterexample: a child that launches successfully and exits with
code 2 makes the program exit with code 1, not 2 — `cmd.Run` reports a
non-zero child exit as an error, and `die` always exits 1. -/
theorem claim1_child_exit_counterexample :
    execCmd (ChildResult.exited 2) = 1 ∧ ¬ execCmd (ChildResult.exited 2) = 2 := by
  decide

/-- Claim C1 (amended): the program exits 0 exactly when the child launches
and exits 0; any non-zero child exit, like any launch failure, makes the
program exit with the generic failure code 1 (the child's code is not
propagated). -/
theorem claim1_exit_code_amended :
    execCmd ChildResult.launchFailed = 1 ∧ execCmd (ChildResult.exited 0) = 0 ∧
      ∀ n : Nat, n ≠ 0 → execCmd (ChildResult.exited n) = 1 := by
  refine ⟨rfl, rfl, fun n hn => ?_⟩
  simp [execCmd, goRunErr, hn]

/-- Witness for the amended C1 theorem at the concrete child exit code 5. -/
theorem claim1_exit_code_amended_witness :
    execCmd (ChildResult.exited 5) = 1 :=
  claim1_exit_code_amended.2.2 5 (by decide)

/-! ### Claim C2 -/

/-- Claim C2 counterexample: with an empty toolchain field, the artifact for
name `tool` and version `v1.0.0` is named `tool-v1.0.0-` — the toolchain
separator is still present as a trailing dash — and not `tool-v1.0.0` as the
claim states. -/
theorem claim2_trailing_dash_counterexample :
    buildBinName false "tool".data "v1.0.0".data [] = "tool-v1.0.0-".data ∧
      ¬ buildBinName false "tool".data "v1.0.0".data [] = "tool-v1.0.0".data := by
  decide

/-- Claim C2 (amended): the final artifact is always named
`<name>-<version>-<toolchain>` — `strings.Join` keeps the separator even when
the toolchain field is empty, leaving a trailing dash — and the stable alias
is named `<name>`; on Windows `.exe` is appended to both. -/
theorem claim2_artifact_name_amended (win : Bool) (name version toolchain : Str) :
    buildBinName win name version toolchain =
      name ++ '-' :: version ++ '-' :: toolchain ++
        (if win then ".exe".data else []) ∧
    buildSymlinkName win name = name ++ (if win then ".exe".data else []) := by
  constructor
  · simp [buildBinName, List.intercalate, List.intersperse, List.flatten]
  · rfl

/-! ### Claim C4 -/

/-- Claim C4: a declaration with an empty `version` field and no embedded `@`
in its package gets the `latest` sentinel as version, and a declaration with
an empty `name` field gets `filepath.Base` (the final path segment) of the
de-suffixed package identifier as its name. -/
theorem claim4_normalize_defaults (b : Binary) :
    (b.version = [] → '@' ∉ b.package →
      (normalizeBinary b).version = "latest".data) ∧
    (b.name = [] →
      (normalizeBinary b).name = filepathBase (normalizeBinary b).package) := by
  constructor
  · intro hv hp
    simp [normalizeBinary, splitOnChar_of_not_mem hp, hv]
  · intro hn
    simp only [normalizeBinary]
    rcases hs : splitOnChar '@' b.package with _ | ⟨p0, rest⟩
    · exact absurd hs (splitOnChar_ne_nil _ _)
    · rcases rest with _ | ⟨p1, rest2⟩ <;> simp [hn]

/-- Witness for C4: `{"package": "github.com/x/tool"}` normalizes to version
`latest` and name `tool`. -/
theorem claim4_normalize_defaults_witness :
    (normalizeBinary ⟨"github.com/x/tool".data, [], [], []⟩).version = "latest".data ∧
    (normalizeBinary ⟨"github.com/x/tool".data, [], [], []⟩).name =
      filepathBase (normalizeBinary ⟨"github.com/x/tool".data, [], [], []⟩).package :=
  ⟨(claim4_normalize_defaults _).1 rfl (by decide),
   (claim4_normalize_defaults _).2 rfl⟩

/-! ### Claim C5 -/

/-- Claim C5: a package of the form `<pkg>@<version>` is split by
normalization into the bare identifier and the suffix version, regardless of
what the explicit `version` field said — the implementation's single
consistent rule is that the embedded suffix always wins. -/
theorem claim5_embedded_version (p v ver nm tc : Str)
    (hp : '@' ∉ p) (hv : '@' ∉ v) (hne : v ≠ []) :
    (normalizeBinary ⟨p ++ '@' :: v, ver, nm, tc⟩).package = p ∧
    (normalizeBinary ⟨p ++ '@' :: v, ver, nm, tc⟩).version = v := by
  have hs : splitOnChar '@' (p ++ '@' :: v) = [p, v] := by
    rw [splitOnChar_append v hp, splitOnChar_of_not_mem hv]
  simp [normalizeBinary, hs, hne]

/-- Witness for C5: `{"package": "a/b@v1", "version": "zz"}` normalizes to
package `a/b` and version `v1` (the embedded suffix wins over `zz`). -/
theorem claim5_embedded_version_witness :
    (normalizeBinary ⟨"a/b".data ++ '@' :: "v1".data, "zz".data, [], []⟩).package =
      "a/b".data ∧
    (normalizeBinary ⟨"a/b".data ++ '@' :: "v1".data, "zz".data, [], []⟩).version =
      "v1".data :=
  claim5_embedded_version "a/b".data "v1".data "zz".data [] []
    (by decide) (by decide) (by decide)

/-! ### Claim C6 -/

/-- Claim C6: after normalization (which always succeeds — the Go function
always returns `nil`), the package contains no `@`, the version is non-empty
and the name is non-empty, for arbitrary input strings. -/
theorem claim6_normalize_invariant (b : Binary) :
    '@' ∉ (normalizeBinary b).package ∧ (normalizeBinary b).version ≠ [] ∧
      (normalizeBinary b).name ≠ [] := by
  simp only [normalizeBinary]
  rcases hs : splitOnChar '@' b.package with _ | ⟨p0, rest⟩
  · exact absurd hs (splitOnChar_ne_nil _ _)
  rcases rest with _ | ⟨p1, rest2⟩
  · obtain ⟨hp, hnotin⟩ := splitOnChar_eq_singleton hs
    refine ⟨hnotin, ?_, ?_⟩
    · split <;> simp_all
    · split
      · exact filepathBase_ne_nil _
      · simp_all
  · have hp0 : '@' ∉ p0 := splitOnChar_head_not_mem hs
    refine ⟨hp0, ?_, ?_⟩
    · split <;> simp_all
    · split
      · exact filepathBase_ne_nil _
      · simp_all

/-! ### Resolution lemmas for the idempotence claim -/

theorem buildBinName_flat (win : Bool) (n v t : Str) :
    buildBinName win n v t =
      n ++ '-' :: v ++ '-' :: t ++ (if win then ".exe".data else []) := by
  simp [buildBinName, List.intercalate, List.intersperse, List.flatten]

theorem buildSymlinkName_false (n : Str) : buildSymlinkName false n = n := by
  simp [buildSymlinkName]

theorem symlinkName_length_lt (b : Binary) :
    (buildSymlinkName false b.name).length < (binName b).length := by
  rw [buildSymlinkName_false, binName, buildBinName_flat]
  simp [List.length_append]

theorem resolveN_found_res {fs : FS} {n : Nat} {p : Str}
    (h : resolveN n fs p = RRes.found) : Res fs p := by
  induction n generalizing p with
  | zero => simp [resolveN] at h
  | succ m ih =>
    rw [resolveN] at h
    cases hlk : lookupFS fs p with
    | none => simp [hlk] at h
    | some e =>
      cases e with
      | artifact => exact Res.art hlk
      | link t =>
        simp only [hlk] at h
        exact Res.lnk hlk (ih h)

theorem resolveN_found_mono {fs : FS} {n m : Nat} {p : Str} (hnm : n ≤ m)
    (h : resolveN n fs p = RRes.found) : resolveN m fs p = RRes.found := by
  induction n generalizing p m with
  | zero => simp [resolveN] at h
  | succ k ih =>
    obtain ⟨m2, rfl⟩ : ∃ m2, m = m2 + 1 := ⟨m - 1, by omega⟩
    rw [resolveN] at h ⊢
    cases hlk : lookupFS fs p with
    | none => simp [hlk] at h
    | some e =>
      cases e with
      | artifact => simp [hlk]
      | link t =>
        simp only [hlk] at h ⊢
        exact ih (by omega) h

theorem overCount_le_length (p : Str) (fs : FS) : overCount p fs ≤ fs.length := by
  induction fs with
  | nil => simp [overCount]
  | cons e r ih =>
    simp only [overCount, List.length_cons]
    split <;> omega

theorem overCount_mono {p t : Str} (h : p.length < t.length) (fs : FS) :
    overCount t fs ≤ overCount p fs := by
  induction fs with
  | nil => simp [overCount]
  | cons e r ih =>
    simp only [overCount]
    by_cases he : t.length < e.1.length
    · rw [if_pos he, if_pos (lt_trans h he)]
      omega
    · rw [if_neg he]
      split <;> omega

theorem overCount_lt {p t : Str} {fs : FS} {e : Entry}
    (hmem : (t, e) ∈ fs) (h : p.length < t.length) :
    overCount t fs < overCount p fs := by
  induction fs with
  | nil => simp at hmem
  | cons a r ih =>
    simp only [overCount]
    rcases List.mem_cons.mp hmem with rfl | hmem2
    · rw [if_pos (show p.length < (t, e).1.length from h),
        if_neg (lt_irrefl (t, e).1.length)]
      have := overCount_mono h r
      omega
    · have hr := ih hmem2
      by_cases ht : t.length < a.1.length
      · rw [if_pos ht, if_pos (lt_trans h ht)]
        omega
      · rw [if_neg ht]
        split <;> omega

theorem lookupFS_mem {fs : FS} {p : Str} {e : Entry}
    (h : lookupFS fs p = some e) : (p, e) ∈ fs := by
  induction fs with
  | nil => simp [lookupFS] at h
  | cons a r ih =>
    obtain ⟨q, ee⟩ := a
    rw [lookupFS] at h
    by_cases hq : q = p
    · rw [if_pos hq] at h
      injection h with h1
      subst hq h1
      exact List.mem_cons_self _ _
    · rw [if_neg hq] at h
      exact List.mem_cons_of_mem _ (ih h)

theorem res_lookup {fs : FS} {p : Str} (h : Res fs p) :
    ∃ e, lookupFS fs p = some e := by
  cases h with
  | art hlk => exact ⟨_, hlk⟩
  | lnk hlk _ => exact ⟨_, hlk⟩

theorem res_resolveN {fs : FS} (hg : LenGood fs) {p : Str} (h : Res fs p) :
    resolveN (overCount p fs + 1) fs p = RRes.found := by
  induction h with
  | art hlk =>
    rw [resolveN]
    simp [hlk]
  | lnk hlk ht ih =>
    rename_i r t
    rw [resolveN]
    simp only [hlk]
    have hpt : r.length < t.length := hg _ _ hlk
    obtain ⟨et, hlt⟩ := res_lookup ht
    have hcount : overCount t fs < overCount r fs :=
      overCount_lt (lookupFS_mem hlt) hpt
    exact resolveN_found_mono (by omega) ih

theorem statOk_of_res {fs : FS} (hg : LenGood fs) {p : Str} (h : Res fs p) :
    statOk fs p = true := by
  have h1 := res_resolveN hg h
  have h2 : overCount p fs + 1 ≤ fs.length + 1 := by
    have := overCount_le_length p fs
    omega
  simp [statOk, resolveFS, resolveN_found_mono h2 h1]

theorem statOk_res {fs : FS} {p : Str} (h : statOk fs p = true) : Res fs p := by
  simp only [statOk, resolveFS, decide_eq_true_eq] at h
  exact resolveN_found_res h

theorem res_setFS_artifact {fs : FS} {P q : Str} (h : Res fs q) :
    Res (setFS fs P Entry.artifact) q := by
  induction h with
  | art hlk =>
    rename_i r
    by_cases hp : r = P
    · subst hp
      exact Res.art (lookupFS_setFS_self fs r Entry.artifact)
    · exact Res.art (by rw [lookupFS_setFS_ne fs _ hp]; exact hlk)
  | lnk hlk ht ih =>
    rename_i r t
    by_cases hp : r = P
    · subst hp
      exact Res.art (lookupFS_setFS_self fs r Entry.artifact)
    · exact Res.lnk (by rw [lookupFS_setFS_ne fs _ hp]; exact hlk) ih

theorem res_setFS_link_high {fs : FS} {L T : Str} (hg : LenGood fs) {q : Str}
    (h : Res fs q) : L.length < q.length → Res (setFS fs L (Entry.link T)) q := by
  induction h with
  | art hlk =>
    intro hl
    rename_i r
    have hr : ¬ r = L := by
      intro he
      rw [he] at hl
      exact lt_irrefl _ hl
    exact Res.art (by rw [lookupFS_setFS_ne fs _ hr]; exact hlk)
  | lnk hlk ht ih =>
    intro hl
    rename_i r t
    have hrt : r.length < t.length := hg _ _ hlk
    have hr : ¬ r = L := by
      intro he
      rw [he] at hl
      exact lt_irrefl _ hl
    exact Res.lnk (by rw [lookupFS_setFS_ne fs _ hr]; exact hlk)
      (ih (lt_trans hl hrt))

theorem res_setFS_link {fs : FS} {L T : Str} (hg : LenGood fs)
    (hT : Res fs T) (hLT : L.length < T.length) {q : Str} (h : Res fs q) :
    Res (setFS fs L (Entry.link T)) q := by
  induction h with
  | art hlk =>
    rename_i r
    by_cases hr : r = L
    · subst hr
      exact Res.lnk (lookupFS_setFS_self _ _ _) (res_setFS_link_high hg hT hLT)
    · exact Res.art (by rw [lookupFS_setFS_ne fs _ hr]; exact hlk)
  | lnk hlk ht ih =>
    rename_i r t
    by_cases hr : r = L
    · subst hr
      exact Res.lnk (lookupFS_setFS_self _ _ _) (res_setFS_link_high hg hT hLT)
    · exact Res.lnk (by rw [lookupFS_setFS_ne fs _ hr]; exact hlk) ih

theorem lengood_setFS_artifact {fs : FS} (hg : LenGood fs) (P : Str) :
    LenGood (setFS fs P Entry.artifact) := by
  intro p t h
  by_cases hp : p = P
  · subst hp
    rw [lookupFS_setFS_self] at h
    simp at h
  · rw [lookupFS_setFS_ne fs _ hp] at h
    exact hg _ _ h

theorem lengood_setFS_link {fs : FS} (hg : LenGood fs) {L T : Str}
    (hLT : L.length < T.length) : LenGood (setFS fs L (Entry.link T)) := by
  intro p t h
  by_cases hp : p = L
  · subst hp
    rw [lookupFS_setFS_self] at h
    injection h with h1
    injection h1 with h2
    exact h2 ▸ hLT
  · rw [lookupFS_setFS_ne fs _ hp] at h
    exact hg _ _ h

theorem allres_setFS_artifact {fs : FS} (ha : AllRes fs) (P : Str) :
    AllRes (setFS fs P Entry.artifact) := by
  intro p t h
  by_cases hp : p = P
  · subst hp
    rw [lookupFS_setFS_self] at h
    simp at h
  · rw [lookupFS_setFS_ne fs _ hp] at h
    exact res_setFS_artifact (ha _ _ h)

theorem allres_setFS_link {fs : FS} (hg : LenGood fs) (ha : AllRes fs)
    {L T : Str} (hT : Res fs T) (hLT : L.length < T.length) :
    AllRes (setFS fs L (Entry.link T)) := by
  intro p t h
  by_cases hp : p = L
  · subst hp
    rw [lookupFS_setFS_self] at h
    injection h with h1
    injection h1 with h2
    exact h2 ▸ res_setFS_link_high hg hT hLT
  · rw [lookupFS_setFS_ne fs _ hp] at h
    exact res_setFS_link hg hT hLT (ha _ _ h)

theorem eraseFS_eraseFS (fs : FS) (p : Str) :
    eraseFS (eraseFS fs p) p = eraseFS fs p := by
  simp [eraseFS, List.filter_filter]

theorem setFS_eraseFS (fs : FS) (p : Str) (e : Entry) :
    setFS (eraseFS fs p) p e = setFS fs p e := by
  simp [setFS, eraseFS_eraseFS]

theorem symlinkBinary_eq {fs : FS} (hg : LenGood fs) (ha : AllRes fs)
    (T L : Str) : symlinkBinary fs T L = some (setFS fs L (Entry.link T)) := by
  cases hlk : lookupFS fs L with
  | none =>
    have hst : statOk fs L = false := statOk_of_lookup_none hlk
    simp [symlinkBinary, hst, hlk]
  | some e =>
    have hres : Res fs L := by
      cases e with
      | artifact => exact Res.art hlk
      | link t => exact Res.lnk hlk (ha _ _ hlk)
    have hst : statOk fs L = true := statOk_of_res hg hres
    simp [symlinkBinary, hst, lookupFS_eraseFS_self, setFS_eraseFS]

theorem installBinary_skip {fs : FS} {b : Binary} (hg : LenGood fs)
    (ha : AllRes fs) (hst : statOk fs (binName b) = true)
    (hv : b.version ≠ "latest".data) :
    installBinary b fs =
      some (setFS fs (buildSymlinkName false b.name)
        (Entry.link (binName b)), 0) := by
  simp [installBinary, hst, hv, symlinkBinary_eq hg ha]

theorem installBinary_good (b : Binary) (fs : FS) (hg : LenGood fs)
    (ha : AllRes fs) :
    ∃ fs2 k, installBinary b fs = some (fs2, k) ∧
      LenGood fs2 ∧ AllRes fs2 ∧ (∀ q, Res fs q → Res fs2 q) ∧
      Res fs2 (binName b) := by
  have hlen := symlinkName_length_lt b
  by_cases hc : statOk fs (binName b) = true ∧ b.version ≠ "latest".data
  · have hfp : Res fs (binName b) := statOk_res hc.1
    exact ⟨setFS fs (buildSymlinkName false b.name) (Entry.link (binName b)), 0,
      installBinary_skip hg ha hc.1 hc.2, lengood_setFS_link hg hlen,
      allres_setFS_link hg ha hfp hlen,
      fun q hq => res_setFS_link hg hfp hlen hq,
      res_setFS_link_high hg hfp hlen⟩
  · have hg1 := lengood_setFS_artifact hg (binName b)
    have ha1 := allres_setFS_artifact ha (binName b)
    have hfp : Res (setFS fs (binName b) Entry.artifact) (binName b) :=
      Res.art (lookupFS_setFS_self _ _ _)
    refine ⟨setFS (setFS fs (binName b) Entry.artifact)
      (buildSymlinkName false b.name) (Entry.link (binName b)), 1, ?_,
      lengood_setFS_link hg1 hlen, allres_setFS_link hg1 ha1 hfp hlen,
      fun q hq => res_setFS_link hg1 hfp hlen (res_setFS_artifact hq),
      res_setFS_link_high hg1 hfp hlen⟩
    simp [installBinary, hc, symlinkBinary_eq hg1 ha1]

theorem installBinaries_good (bins : List Binary) : ∀ fs : FS,
    LenGood fs → AllRes fs →
    ∃ fs2 k, installBinaries bins fs = some (fs2, k) ∧
      LenGood fs2 ∧ AllRes fs2 ∧ (∀ q, Res fs q → Res fs2 q) ∧
      (∀ b ∈ bins, Res fs2 (binName b)) := by
  induction bins with
  | nil =>
    intro fs hg ha
    exact ⟨fs, 0, rfl, hg, ha, fun _ h => h, by simp⟩
  | cons b rest ih =>
    intro fs hg ha
    obtain ⟨fs1, k, h1, hg1, ha1, hmono1, hres1⟩ := installBinary_good b fs hg ha
    obtain ⟨fs2, m, h2, hg2, ha2, hmono2, hres2⟩ := ih fs1 hg1 ha1
    refine ⟨fs2, k + m, ?_, hg2, ha2,
      fun q hq => hmono2 q (hmono1 q hq), ?_⟩
    · simp [installBinaries, h1, h2]
    · intro b2 hb2
      rcases List.mem_cons.mp hb2 with rfl | hmem
      · exact hmono2 _ hres1
      · exact hres2 _ hmem

theorem installBinaries_second (bins : List Binary) : ∀ fs : FS,
    LenGood fs → AllRes fs →
    (∀ b ∈ bins, b.version ≠ "latest".data) →
    (∀ b ∈ bins, Res fs (binName b)) →
    ∃ fs2, installBinaries bins fs = some (fs2, 0) ∧
      LenGood fs2 ∧ AllRes fs2 ∧
      (∀ q t, lookupFS fs q = some (Entry.link t) →
        ∃ u, lookupFS fs2 q = some (Entry.link u)) ∧
      (∀ b ∈ bins, ∃ u,
        lookupFS fs2 (buildSymlinkName false b.name) = some (Entry.link u)) := by
  induction bins with
  | nil =>
    intro fs hg ha _ _
    exact ⟨fs, rfl, hg, ha, fun q t h => ⟨t, h⟩, by simp⟩
  | cons b rest ih =>
    intro fs hg ha hv hres
    have hlen := symlinkName_length_lt b
    have hfp : Res fs (binName b) := hres b (List.mem_cons_self _ _)
    have hst : statOk fs (binName b) = true := statOk_of_res hg hfp
    have hskip := installBinary_skip hg ha hst (hv b (List.mem_cons_self _ _))
    have hg1 : LenGood (setFS fs (buildSymlinkName false b.name)
        (Entry.link (binName b))) := lengood_setFS_link hg hlen
    have ha1 : AllRes (setFS fs (buildSymlinkName false b.name)
        (Entry.link (binName b))) := allres_setFS_link hg ha hfp hlen
    have hv1 : ∀ b2 ∈ rest, b2.version ≠ "latest".data :=
      fun b2 hb2 => hv b2 (List.mem_cons_of_mem _ hb2)
    have hres1 : ∀ b2 ∈ rest, Res (setFS fs (buildSymlinkName false b.name)
        (Entry.link (binName b))) (binName b2) :=
      fun b2 hb2 => res_setFS_link hg hfp hlen (hres b2 (List.mem_cons_of_mem _ hb2))
    obtain ⟨fs2, h2, hg2, ha2, hlink2, halias2⟩ := ih _ hg1 ha1 hv1 hres1
    refine ⟨fs2, ?_, hg2, ha2, ?_, ?_⟩
    · simp [installBinaries, hskip, h2]
    · intro q t hq
      by_cases hql : q = buildSymlinkName false b.name
      · subst hql
        exact hlink2 _ _ (lookupFS_setFS_self _ _ _)
      · exact hlink2 _ _ (by rw [lookupFS_setFS_ne fs _ hql]; exact hq)
    · intro b2 hb2
      rcases List.mem_cons.mp hb2 with rfl | hmem
      · exact hlink2 _ _ (lookupFS_setFS_self _ _ _)
      · exact halias2 _ hmem

/-! ### Claim C3 -/

/-- Claim C3 counterexample: with the manifest entry `t`/version `v` and a
pre-seeded directory in which `t-v-` is a symlink to the regular file `t`,
the first `install` run is fully successful (zero builds, "already
installed", alias republished), but republishing turns `t` into a symlink to
`t-v-`, creating a cycle; on the second run `os.Stat` on the artifact fails
with `ELOOP`, the skip branch is not taken, and the toolchain is invoked once
— not zero times. -/
theorem claim3_idempotent_counterexample :
    (installBinaries [⟨"x/p".data, "v".data, "t".data, []⟩]
        [("t-v-".data, Entry.link "t".data), ("t".data, Entry.artifact)]).map
      Prod.snd = some 0 ∧
    ((installBinaries [⟨"x/p".data, "v".data, "t".data, []⟩]
        [("t-v-".data, Entry.link "t".data), ("t".data, Entry.artifact)]).bind
      (fun r => installBinaries [⟨"x/p".data, "v".data, "t".data, []⟩] r.1)).map
      Prod.snd = some 1 := by
  decide

/-- Claim C3 (amended): if the binary directory contains no symbolic links
when the first run starts (for example a fresh or just-cleaned directory),
then after a fully successful `install` run with no `latest` version, a
second `install` run performs zero external toolchain invocations and still
(re)publishes a resolving symlink alias for every declared binary. -/
theorem claim3_idempotent_amended (bins : List Binary) (fs0 fs1 : FS) (k : Nat)
    (hnl : ∀ p t, lookupFS fs0 p ≠ some (Entry.link t))
    (hv : ∀ b ∈ bins, b.version ≠ "latest".data)
    (h1 : installBinaries bins fs0 = some (fs1, k)) :
    ∃ fs2, installBinaries bins fs1 = some (fs2, 0) ∧
      ∀ b ∈ bins,
        (∃ u, lookupFS fs2 (buildSymlinkName false b.name) =
          some (Entry.link u)) ∧
        statOk fs2 (buildSymlinkName false b.name) = true := by
  have hg0 : LenGood fs0 := fun p t h => absurd h (hnl p t)
  have ha0 : AllRes fs0 := fun p t h => absurd h (hnl p t)
  obtain ⟨fs1b, kb, h1b, hg1, ha1, _, hres1⟩ := installBinaries_good bins fs0 hg0 ha0
  rw [h1] at h1b
  injection h1b with h1c
  obtain ⟨he1, -⟩ := Prod.mk.injEq .. ▸ h1c.symm
  subst he1
  obtain ⟨fs2, h2, hg2, ha2, _, halias⟩ :=
    installBinaries_second bins _ hg1 ha1 hv hres1
  refine ⟨fs2, h2, fun b hb => ?_⟩
  obtain ⟨u, hu⟩ := halias b hb
  exact ⟨⟨u, hu⟩, statOk_of_res hg2 (Res.lnk hu (ha2 _ _ hu))⟩

/-- Witness for the amended C3 theorem: one declaration installed into an
empty directory (one build), after which the second run performs zero builds
and leaves a resolving alias. -/
theorem claim3_idempotent_amended_witness :
    ∃ fs2, installBinaries [⟨"x/p".data, "v".data, "t".data, []⟩]
        [("t".data, Entry.link "t-v-".data), ("t-v-".data, Entry.artifact)] =
        some (fs2, 0) ∧
      ∀ b ∈ [(⟨"x/p".data, "v".data, "t".data, []⟩ : Binary)],
        (∃ u, lookupFS fs2 (buildSymlinkName false b.name) =
          some (Entry.link u)) ∧
        statOk fs2 (buildSymlinkName false b.name) = true :=
  claim3_idempotent_amended [⟨"x/p".data, "v".data, "t".data, []⟩] []
    [("t".data, Entry.link "t-v-".data), ("t-v-".data, Entry.artifact)] 1
    (fun p t h => by simp [lookupFS] at h)
    (by decide) (by decide)

/-! ### Claim C7 -/

/-- Claim C7: `exec` with an undeclared name dies with the "not found" error,
spawning nothing; `exec` with a declared name whose artifact path is missing
from disk dies with the distinct "not installed" error, spawning nothing;
both paths exit 1; and when several declarations share the requested name the
first declaration in manifest order is the one consulted. -/
theorem claim7_exec_errors (bins : List Binary) (name : Str) (args : List Str)
    (fs : FS) (child : Str → List Str → ChildResult) :
    ((∀ b ∈ bins, b.name ≠ name) →
        execBinaryM bins name args fs child = ExecOut.notFound) ∧
    (∀ b, bins.find? (fun x => x.name = name) = some b →
        statNoent fs (binName b) = true →
        execBinaryM bins name args fs child = ExecOut.notInstalled) ∧
    (∀ b rest, b.name = name →
        execBinaryM (b :: rest) name args fs child =
          (if statNoent fs (binName b) then ExecOut.notInstalled
           else ExecOut.spawned (binName b) args (child (binName b) args))) ∧
    ExecOut.notFound ≠ ExecOut.notInstalled ∧
    execOutExit ExecOut.notFound = 1 ∧ execOutExit ExecOut.notInstalled = 1 := by
  refine ⟨?_, ?_, ?_, by simp, rfl, rfl⟩
  · intro hall
    have hnone : bins.find? (fun b => b.name = name) = none := by
      rw [List.find?_eq_none]
      intro x hx
      simpa using hall x hx
    simp [execBinaryM, hnone]
  · intro b hfind hno
    simp [execBinaryM, hfind, hno]
  · intro b rest hb
    simp [execBinaryM, List.find?_cons, hb]

/-- Witness for C7 on a one-entry manifest: the undeclared name `u` is "not
found"; the declared name `t` with an empty binary directory is "not
installed". -/
theorem claim7_exec_errors_witness :
    execBinaryM [⟨"x/p".data, "v".data, "t".data, []⟩] "u".data [] []
        (fun _ _ => ChildResult.exited 0) = ExecOut.notFound ∧
    execBinaryM [⟨"x/p".data, "v".data, "t".data, []⟩] "t".data [] []
        (fun _ _ => ChildResult.exited 0) = ExecOut.notInstalled :=
  ⟨(claim7_exec_errors _ _ _ _ _).1 (by decide),
   (claim7_exec_errors _ _ _ _ _).2.1 ⟨"x/p".data, "v".data, "t".data, []⟩
     (by decide) (by decide)⟩

/-! ### Claim C8 -/

/-- Claim C8 counterexample: a dangling symlink left at the alias path is not
removed — `os.Stat` follows the link, fails, and the removal is skipped — so
`os.Symlink` fails with `EEXIST` and publication fails, contradicting
"publishing never fails merely because the alias path is already occupied". -/
theorem claim8_dangling_counterexample :
    symlinkBinary [("t".data, Entry.link "gone".data)] "t-v-".data "t".data =
      none := by
  decide

/-- Claim C8 (amended): when the alias path holds an entry that `os.Stat`
reports (a regular file or a symlink resolving to an existing file) it is
removed first and the alias is recreated pointing at the artifact; when the
alias path is empty the alias is simply created; but a dangling symlink at
the alias path is not removed, and publication then fails. -/
theorem claim8_alias_replace_amended (fs : FS) (target lnk : Str) :
    (statOk fs lnk = true →
        symlinkBinary fs target lnk =
          some (setFS (eraseFS fs lnk) lnk (Entry.link target))) ∧
    (lookupFS fs lnk = none →
        symlinkBinary fs target lnk = some (setFS fs lnk (Entry.link target))) ∧
    (statOk fs lnk = false → ∀ e, lookupFS fs lnk = some e →
        symlinkBinary fs target lnk = none) := by
  refine ⟨?_, ?_, ?_⟩
  · intro hok
    simp [symlinkBinary, hok, lookupFS_eraseFS_self]
  · intro hnone
    simp [symlinkBinary, statOk_of_lookup_none hnone, hnone]
  · intro hok e he
    simp [symlinkBinary, hok, he]

/-- Witness for the amended C8 theorem: a live alias (regular file) is
replaced, and an absent alias is created. -/
theorem claim8_alias_replace_amended_witness :
    symlinkBinary [("t".data, Entry.artifact)] "t-v-".data "t".data =
      some (setFS (eraseFS [("t".data, Entry.artifact)] "t".data) "t".data
        (Entry.link "t-v-".data)) ∧
    symlinkBinary [] "t-v-".data "t".data =
      some (setFS [] "t".data (Entry.link "t-v-".data)) :=
  ⟨(claim8_alias_replace_amended _ _ _).1 (by decide),
   (claim8_alias_replace_amended _ _ _).2.1 (by decide)⟩

/-! ### Claim C9 -/

/-- Claim C9 counterexample: with first argument `-h` and an unreadable or
malformed manifest, the program dies with a load error instead of printing
the usage message — the manifest is loaded before the argument is dispatched,
so the usage outcome does depend on the manifest (the exit code is 1 either
way, but the claimed usage message is not printed). -/
theorem claim9_usage_counterexample :
    mainModel ["bd".data, "-h".data] none [] (fun _ _ => ChildResult.exited 0) =
      MainOut.loadError ∧
    MainOut.loadError ≠ MainOut.usage := by
  constructor
  · rfl
  · simp

/-- Claim C9 (amended): with no arguments the usage message is printed and
the process exits 1 before the manifest is touched; with any first argument
that is neither `install` nor `exec` (including `-h`, `--help`, `help`) the
exit code is 1, but the manifest is loaded first: if loading fails the
program dies with a load error, and only if it succeeds is the usage message
printed. -/
theorem claim9_usage_amended (argv0 h : Str) (rest : List Str)
    (load : Option Config) (fs : FS) (child : Str → List Str → ChildResult) :
    mainModel [] load fs child = MainOut.usage ∧
    mainModel [argv0] load fs child = MainOut.usage ∧
    (h ≠ "install".data → h ≠ "exec".data →
      (load = none →
        mainModel (argv0 :: h :: rest) load fs child = MainOut.loadError) ∧
      (∀ cfg, load = some cfg →
        mainModel (argv0 :: h :: rest) load fs child = MainOut.usage) ∧
      mainExit (mainModel (argv0 :: h :: rest) load fs child) = 1) := by
  refine ⟨rfl, rfl, fun h1 h2 => ⟨?_, ?_, ?_⟩⟩
  · intro hl
    subst hl
    rfl
  · intro cfg hl
    subst hl
    simp [mainModel, h1, h2]
  · cases load with
    | none => rfl
    | some cfg => simp [mainModel, h1, h2, mainExit]

/-- Witness for the amended C9 theorem at `--help` with a loadable manifest
(usage, exit 1) — together with the empty-argument cases. -/
theorem claim9_usage_amended_witness :
    mainModel ["bd".data] none [] (fun _ _ => ChildResult.exited 0) =
      MainOut.usage ∧
    mainModel ["bd".data, "--help".data] (some ⟨[]⟩) []
      (fun _ _ => ChildResult.exited 0) = MainOut.usage ∧
    mainExit (mainModel ["bd".data, "--help".data] (some ⟨[]⟩) []
      (fun _ _ => ChildResult.exited 0)) = 1 :=
  ⟨(claim9_usage_amended "bd".data "--help".data [] none []
      (fun _ _ => ChildResult.exited 0)).2.1,
   ((claim9_usage_amended "bd".data "--help".data [] (some ⟨[]⟩) []
      (fun _ _ => ChildResult.exited 0)).2.2 (by decide) (by decide)).2.1 ⟨[]⟩ rfl,
   ((claim9_usage_amended "bd".data "--help".data [] (some ⟨[]⟩) []
      (fun _ _ => ChildResult.exited 0)).2.2 (by decide) (by decide)).2.2⟩

/-! ### Claim C10 -/

/-- Claim C10: when any argument after `exec` (the requested name or a
pass-through argument) is `--clean`, `-clean` or `-c`, the whole target
directory is wiped before the binary lookup runs — the clean pre-step is
applied before command dispatch, not only for `install` — the argument list
is still forwarded verbatim, and consequently a declared binary is always
reported "not installed". -/
theorem claim10_clean_applies_to_exec (argv0 name : Str) (args : List Str)
    (cfg : Config) (fs : FS) (child : Str → List Str → ChildResult)
    (hclean : (name :: args).any isCleanFlag = true) :
    mainModel (argv0 :: "exec".data :: name :: args) (some cfg) fs child =
      MainOut.execRes (execBinaryM cfg.binaries name args [] child) ∧
    (∀ b, cfg.binaries.find? (fun x => x.name = name) = some b →
      execBinaryM cfg.binaries name args [] child = ExecOut.notInstalled) := by
  constructor
  · simp [mainModel, hclean, show ¬ "exec".data = "install".data from by decide]
  · intro b hfind
    simp [execBinaryM, hfind, statNoent, resolveFS, resolveN, lookupFS]

/-- Witness for C10: `bd exec t --clean` with `t` declared and installed
wipes the directory and reports `t` as not installed, with `--clean` still
among the forwarded arguments. -/
theorem claim10_clean_applies_to_exec_witness :
    mainModel ["bd".data, "exec".data, "t".data, "--clean".data]
        (some ⟨[⟨"x/p".data, "v".data, "t".data, []⟩]⟩)
        [("t-v-".data, Entry.artifact)] (fun _ _ => ChildResult.exited 0) =
      MainOut.execRes (execBinaryM [⟨"x/p".data, "v".data, "t".data, []⟩]
        "t".data ["--clean".data] [] (fun _ _ => ChildResult.exited 0)) ∧
    execBinaryM [⟨"x/p".data, "v".data, "t".data, []⟩] "t".data
        ["--clean".data] [] (fun _ _ => ChildResult.exited 0) =
      ExecOut.notInstalled :=
  ⟨(claim10_clean_applies_to_exec "bd".data "t".data ["--clean".data]
      ⟨[⟨"x/p".data, "v".data, "t".data, []⟩]⟩ [("t-v-".data, Entry.artifact)]
      (fun _ _ => ChildResult.exited 0) (by decide)).1,
   (claim10_clean_applies_to_exec "bd".data "t".data ["--clean".data]
      ⟨[⟨"x/p".data, "v".data, "t".data, []⟩]⟩ [("t-v-".data, Entry.artifact)]
      (fun _ _ => ChildResult.exited 0) (by decide)).2
      ⟨"x/p".data, "v".data, "t".data, []⟩ (by decide)⟩

end BD
